import Mathlib

/-!
Shallow embedding of the recipe-recommendation engine in `app.py`:
the ingredient normalizer, the per-recipe scorer (`match_score`), the
substitution advisor, the greedy recommender, the backtracking combo
optimizer and the `/recipes` ranking entry point.  Python sets of
strings become `Finset String`, floats become `ℚ`, the recipe catalog
(the module-level `recipes` list loaded from JSON) becomes an explicit
`List Recipe` parameter, and the form integer `num_combo` becomes an
`Int` (Python ints are unbounded and may be negative).
-/

namespace RecipeApp

/-- Python `s.lower().strip()` applied to one ingredient string. -/
def norm (s : String) : String := s.toLower.trim

/-- One catalog entry: the JSON recipe object fields the engine reads. -/
structure Recipe where
  id : Int
  name : String
  ingredients : List String
deriving DecidableEq, Repr

/-- Source `normalize_ings`: lowercase and strip every element. -/
def normalize_ings (ing_list : List String) : List String := ing_list.map norm

/-- The normalized requirement set of a recipe:
`set(normalize_ings(recipe["ingredients"]))`. -/
def reqSet (r : Recipe) : Finset String := (normalize_ings r.ingredients).toFinset

/-- The normalized available set: `set(normalize_ings(available_ings))`. -/
def availSet (ings : List String) : Finset String := (normalize_ings ings).toFinset

/-- Python `sorted(list(s))` for a set of strings. -/
def sortStr (s : Finset String) : List String := s.sort (· ≤ ·)

/-- Source `match_score`: returns `(score, missing, present)` where
`score = len(present) / max(len(req), 1)`, and `missing`, `present` are
sorted lists. -/
def match_score (recipe : Recipe) (available_set : Finset String) :
    ℚ × List String × List String :=
  let req := reqSet recipe
  let present := req ∩ available_set
  let missing := sortStr (req \ available_set)
  let score : ℚ := (present.card : ℚ) / ((max req.card 1 : ℕ) : ℚ)
  (score, missing, sortStr present)

theorem sortStr_toFinset (s : Finset String) : (sortStr s).toFinset = s :=
  Finset.sort_toFinset _ s

theorem sortStr_length (s : Finset String) : (sortStr s).length = s.card :=
  Finset.length_sort _

theorem sortStr_sorted (s : Finset String) : (sortStr s).Sorted (· ≤ ·) :=
  Finset.sort_sorted _ s

/-- C1: for every recipe `r` and available set `A`, `match_score` returns
`(score, missing, present)` with `score = |present| / max(|required|, 1)`,
`score ∈ [0,1]`, `missing` and `present` sorted, disjoint as sets, with
union the normalized requirement set; a recipe with an empty ingredient
list scores `0`. -/
theorem match_score_spec (r : Recipe) (A : Finset String) :
    (match_score r A).1
        = (((match_score r A).2.2.length : ℚ) / ((max (reqSet r).card 1 : ℕ) : ℚ))
    ∧ 0 ≤ (match_score r A).1
    ∧ (match_score r A).1 ≤ 1
    ∧ (match_score r A).2.1.Sorted (· ≤ ·)
    ∧ (match_score r A).2.2.Sorted (· ≤ ·)
    ∧ (match_score r A).2.1.toFinset ∩ (match_score r A).2.2.toFinset = ∅
    ∧ (match_score r A).2.1.toFinset ∪ (match_score r A).2.2.toFinset = reqSet r
    ∧ (r.ingredients = [] → (match_score r A).1 = 0) := by
  have hden : (0 : ℚ) < ((max (reqSet r).card 1 : ℕ) : ℚ) := by
    have : (1 : ℕ) ≤ max (reqSet r).card 1 := le_max_right _ _
    exact_mod_cast Nat.lt_of_lt_of_le Nat.zero_lt_one this
  refine ⟨?_, ?_, ?_, ?_, ?_, ?_, ?_, ?_⟩
  · simp [match_score, sortStr_length]
  · simp only [match_score]
    positivity
  · simp only [match_score]
    rw [div_le_one hden]
    have hsub : (reqSet r ∩ A).card ≤ (reqSet r).card :=
      Finset.card_le_card Finset.inter_subset_left
    exact_mod_cast le_trans hsub (le_max_left _ _)
  · simpa only [match_score] using sortStr_sorted (reqSet r \ A)
  · simpa only [match_score] using sortStr_sorted (reqSet r ∩ A)
  · simp only [match_score, sortStr_toFinset]
    ext x
    simp only [Finset.mem_inter, Finset.mem_sdiff, Finset.not_mem_empty, iff_false]
    tauto
  · simp only [match_score, sortStr_toFinset]
    exact Finset.sdiff_union_inter _ _
  · intro h
    simp [match_score, reqSet, normalize_ings, h]

/-- The static substitution table `SUBSTITUTIONS`, in source order. -/
def SUBSTITUTIONS : List (String × List String) := [
  ("butter", ["margarine", "olive oil", "ghee"]),
  ("cream", ["yogurt", "milk + butter (small)"]),
  ("egg", ["banana (mashed)", "applesauce", "flaxseed + water"]),
  ("milk", ["soy milk", "almond milk", "water + milk powder"]),
  ("cheese", ["nutritional yeast", "cream cheese (if ok)"]),
  ("garlic", ["garlic powder", "asafoetida (hing)"]),
  ("onion", ["shallot", "green onion"]),
  ("salt", ["soy sauce (in some recipes)", "salt substitute"]),
  ("rice", ["quinoa (different texture)"]),
  ("paneer", ["tofu"]),
  ("chicken", ["tofu (vegetarian swap)", "seitan"]),
  ("tomato", ["tomato puree", "passata"]),
  ("sugar", ["honey", "maple syrup"])]

/-- Python `SUBSTITUTIONS[key]` guarded by `key in SUBSTITUTIONS`. -/
def subst_lookup (key : String) : Option (List String) :=
  (SUBSTITUTIONS.find? (fun p => p.1 == key)).map Prod.snd

/-- Python dict assignment `d[k] = v` on an association-list model of a
dict: overwrite the entry in place when the key is present, else append. -/
def dict_set (d : List (String × List String)) (key : String) (v : List String) :
    List (String × List String) :=
  if d.any (fun p => p.1 == key) then
    d.map (fun p => if p.1 == key then (key, v) else p)
  else d ++ [(key, v)]

/-- Source `substitution_suggestions`: for each missing ingredient `m`, when
`m.lower()` is a key of `SUBSTITUTIONS`, set `suggestions[m]` to that entry. -/
def substitution_suggestions (missing_list : List String) :
    List (String × List String) :=
  missing_list.foldl
    (fun suggestions m =>
      match subst_lookup m.toLower with
      | some v => dict_set suggestions m v
      | none => suggestions)
    []

theorem dict_set_mem {d : List (String × List String)} {k : String} {v₀ : List String}
    (hd : ∀ p ∈ d, subst_lookup p.1.toLower = some p.2)
    (hk : subst_lookup k.toLower = some v₀) (m : String) (v : List String) :
    ((m, v) ∈ dict_set d k v₀ ↔ (m, v) ∈ d ∨ (m = k ∧ v = v₀)) := by
  unfold dict_set
  by_cases hany : d.any (fun p => p.1 == k) = true
  · rw [if_pos hany]
    have hmap : d.map (fun p => if p.1 == k then (k, v₀) else p) = d := by
      conv_rhs => rw [← List.map_id d]
      apply List.map_congr_left
      intro p hp
      by_cases hpk : p.1 = k
      · have : some p.2 = some v₀ := by rw [← hd p hp, hpk, hk]
        have hv : p.2 = v₀ := Option.some.inj this
        have hpe : p = (k, v₀) := Prod.ext hpk hv
        simp [hpe]
      · simp [hpk]
    rw [hmap]
    constructor
    · exact Or.inl
    · rintro (h | ⟨rfl, rfl⟩)
      · exact h
      · rcases List.any_eq_true.mp hany with ⟨p, hp, hpk⟩
        have hpk' : p.1 = m := by simpa using hpk
        have : some p.2 = some v := by rw [← hd p hp, hpk', hk]
        have hv : p.2 = v := Option.some.inj this
        have : p = (m, v) := Prod.ext hpk' hv
        rwa [this] at hp
  · rw [if_neg hany]
    simp only [List.mem_append, List.mem_singleton, Prod.mk.injEq]

theorem dict_set_sub {d : List (String × List String)} {k : String} {v₀ : List String}
    (p : String × List String) (hp : p ∈ dict_set d k v₀) :
    p ∈ d ∨ p = (k, v₀) := by
  unfold dict_set at hp
  by_cases hany : d.any (fun p => p.1 == k) = true
  · rw [if_pos hany] at hp
    rcases List.mem_map.mp hp with ⟨q, hq, hfq⟩
    by_cases hqk : q.1 = k
    · right; rw [← hfq]; simp [hqk]
    · left; rw [← hfq]; simpa [hqk] using hq
  · rw [if_neg hany] at hp
    simpa using hp

theorem dict_set_keys {d : List (String × List String)} {k : String} {v₀ : List String}
    (hnd : (d.map Prod.fst).Nodup) :
    ((dict_set d k v₀).map Prod.fst).Nodup := by
  unfold dict_set
  by_cases hany : d.any (fun p => p.1 == k) = true
  · rw [if_pos hany]
    have : (d.map (fun p => if p.1 == k then (k, v₀) else p)).map Prod.fst
        = d.map Prod.fst := by
      rw [List.map_map]
      apply List.map_congr_left
      intro p _
      by_cases hpk : p.1 = k
      · simp [hpk]
      · simp [hpk]
    rwa [this]
  · rw [if_neg hany]
    simp only [List.map_append, List.map_singleton]
    have hk : k ∉ d.map Prod.fst := by
      intro hmem
      rcases List.mem_map.mp hmem with ⟨p, hp, hpk⟩
      exact hany (List.any_eq_true.mpr ⟨p, hp, by simpa using hpk⟩)
    simpa using (List.nodup_append.mpr ⟨hnd, List.nodup_singleton _, by
      intro a ha hb
      simp only [List.mem_singleton] at hb
      exact hk (hb ▸ ha)⟩)

theorem subst_fold_spec (L : List String) :
    ∀ (d : List (String × List String)),
      (∀ p ∈ d, subst_lookup p.1.toLower = some p.2) →
      (d.map Prod.fst).Nodup →
      (∀ p ∈ L.foldl
          (fun suggestions m =>
            match subst_lookup m.toLower with
            | some v => dict_set suggestions m v
            | none => suggestions) d,
          subst_lookup p.1.toLower = some p.2)
      ∧ ((L.foldl
          (fun suggestions m =>
            match subst_lookup m.toLower with
            | some v => dict_set suggestions m v
            | none => suggestions) d).map Prod.fst).Nodup
      ∧ ∀ (m : String) (v : List String),
          ((m, v) ∈ L.foldl
            (fun suggestions m =>
              match subst_lookup m.toLower with
              | some v => dict_set suggestions m v
              | none => suggestions) d
          ↔ (m, v) ∈ d ∨ (m ∈ L ∧ subst_lookup m.toLower = some v)) := by
  induction L with
  | nil => intro d hd hnd; exact ⟨hd, hnd, by simp⟩
  | cons x L ih =>
    intro d hd hnd
    simp only [List.foldl_cons]
    cases hx : subst_lookup x.toLower with
    | none =>
      rcases ih d hd hnd with ⟨h1, h2, h3⟩
      refine ⟨h1, h2, ?_⟩
      intro m v
      rw [h3 m v]
      constructor
      · rintro (h | h)
        · exact Or.inl h
        · exact Or.inr ⟨List.mem_cons_of_mem _ h.1, h.2⟩
      · rintro (h | ⟨hm, hv⟩)
        · exact Or.inl h
        · rcases List.mem_cons.mp hm with rfl | hm'
          · rw [hx] at hv; cases hv
          · exact Or.inr ⟨hm', hv⟩
    | some v₀ =>
      have hd' : ∀ p ∈ dict_set d x v₀, subst_lookup p.1.toLower = some p.2 := by
        intro p hp
        rcases dict_set_sub p hp with h | rfl
        · exact hd p h
        · exact hx
      rcases ih (dict_set d x v₀) hd' (dict_set_keys hnd) with ⟨h1, h2, h3⟩
      refine ⟨h1, h2, ?_⟩
      intro m v
      rw [h3 m v, dict_set_mem hd hx m v]
      constructor
      · rintro ((h | ⟨rfl, rfl⟩) | ⟨hm, hv⟩)
        · exact Or.inl h
        · exact Or.inr ⟨List.mem_cons_self _ _, hx⟩
        · exact Or.inr ⟨List.mem_cons_of_mem _ hm, hv⟩
      · rintro (h | ⟨hm, hv⟩)
        · exact Or.inl (Or.inl h)
        · rcases List.mem_cons.mp hm with rfl | hm'
          · rw [hx] at hv
            exact Or.inl (Or.inr ⟨rfl, (Option.some.inj hv).symm⟩)
          · exact Or.inr ⟨hm', hv⟩

/-- C9: the suggestions dict built from a missing-ingredient list contains
exactly the pairs `(m, SUBSTITUTIONS[m.lower()])` for those `m` in the list
whose lowercased form is a key of the static table — anything else is
silently omitted — and its keys are not repeated (it is a mapping); the
function is total, so no input errors. -/
theorem substitution_suggestions_spec (missing_list : List String) :
    (∀ (m : String) (v : List String),
      ((m, v) ∈ substitution_suggestions missing_list ↔
        (m ∈ missing_list ∧ subst_lookup m.toLower = some v)))
    ∧ ((substitution_suggestions missing_list).map Prod.fst).Nodup := by
  rcases subst_fold_spec missing_list [] (by simp) (by simp) with ⟨_, h2, h3⟩
  refine ⟨?_, h2⟩
  intro m v
  rw [substitution_suggestions, h3 m v]
  simp

/-- A left fold that replaces its accumulator exactly when an element's key
strictly exceeds the accumulator's key — the shared shape of the greedy
candidate scan and of the backtracking best-solution update.  The fold
returns the initial accumulator when no element strictly beats it, and
otherwise the image of the first element attaining the maximal key. -/
theorem foldl_first_argmax {α β γ : Type} [LinearOrder γ]
    (g : β → α → β) (keyB : β → γ) (keyOf : α → γ) (f : α → β)
    (hg : ∀ acc x, g acc x = if keyB acc < keyOf x then f x else acc)
    (hf : ∀ x, keyB (f x) = keyOf x) :
    ∀ (xs : List α) (acc : β),
      (xs.foldl g acc = acc ∧ ∀ x ∈ xs, keyOf x ≤ keyB acc)
      ∨ (∃ i, ∃ hi : i < xs.length,
          xs.foldl g acc = f (xs.get ⟨i, hi⟩)
          ∧ keyB acc < keyOf (xs.get ⟨i, hi⟩)
          ∧ (∀ j, ∀ hj : j < xs.length,
              keyOf (xs.get ⟨j, hj⟩) ≤ keyOf (xs.get ⟨i, hi⟩))
          ∧ (∀ j, ∀ hj : j < xs.length, j < i →
              keyOf (xs.get ⟨j, hj⟩) < keyOf (xs.get ⟨i, hi⟩))) := by
  intro xs
  induction xs with
  | nil =>
    intro acc
    left
    exact ⟨rfl, by intro x hx; cases hx⟩
  | cons x xs ih =>
    intro acc
    rw [List.foldl_cons, hg acc x]
    by_cases hx : keyB acc < keyOf x
    · rw [if_pos hx]
      rcases ih (f x) with ⟨heq, hall⟩ | ⟨i, hi, heq, hgt, hmax, hfirst⟩
      · right
        refine ⟨0, Nat.succ_pos _, heq, hx, ?_, ?_⟩
        · intro j hj
          cases j with
          | zero => exact le_refl _
          | succ j' =>
            have hj' : j' < xs.length := Nat.lt_of_succ_lt_succ hj
            have := hall (xs.get ⟨j', hj'⟩) (List.get_mem xs j' hj')
            rw [hf] at this
            exact this
        · intro j hj hj0
          exact absurd hj0 (Nat.not_lt_zero j)
      · right
        have hxi : keyOf x < keyOf (xs.get ⟨i, hi⟩) := by
          rw [← hf x]; exact hgt
        refine ⟨i + 1, Nat.succ_lt_succ hi, heq, lt_trans hx hxi, ?_, ?_⟩
        · intro j hj
          cases j with
          | zero => exact le_of_lt hxi
          | succ j' => exact hmax j' (Nat.lt_of_succ_lt_succ hj)
        · intro j hj hji
          cases j with
          | zero => exact hxi
          | succ j' =>
            exact hfirst j' (Nat.lt_of_succ_lt_succ hj) (Nat.lt_of_succ_lt_succ hji)
    · rw [if_neg hx]
      have hxle : keyOf x ≤ keyB acc := le_of_not_lt hx
      rcases ih acc with ⟨heq, hall⟩ | ⟨i, hi, heq, hgt, hmax, hfirst⟩
      · left
        refine ⟨heq, ?_⟩
        intro y hy
        rcases List.mem_cons.mp hy with rfl | hy'
        · exact hxle
        · exact hall y hy'
      · right
        have hxi : keyOf x < keyOf (xs.get ⟨i, hi⟩) := lt_of_le_of_lt hxle hgt
        refine ⟨i + 1, Nat.succ_lt_succ hi, heq, hgt, ?_, ?_⟩
        · intro j hj
          cases j with
          | zero => exact le_of_lt hxi
          | succ j' => exact hmax j' (Nat.lt_of_succ_lt_succ hj)
        · intro j hj hji
          cases j with
          | zero => exact hxi
          | succ j' =>
            exact hfirst j' (Nat.lt_of_succ_lt_succ hj) (Nat.lt_of_succ_lt_succ hji)

/-- One row of the greedy result:
`{"recipe": best, "covered": sorted(list(best_cover))}`. -/
structure GreedyChoice where
  recipe : Recipe
  covered : List String
deriving DecidableEq, Repr

/-- The inner candidate scan of one greedy iteration: Python tracks
`best`/`best_cover` (initially `None`/`set()`), replacing them whenever a
candidate covers strictly more remaining ingredients. -/
def select_best (candidates : List Recipe) (remaining : Finset String) :
    Option Recipe × Finset String :=
  candidates.foldl
    (fun acc r =>
      let cover := reqSet r ∩ remaining
      if cover.card > acc.2.card then (some r, cover) else acc)
    (none, (∅ : Finset String))

/-- The `for _ in range(k)` loop of `greedy_recommendation`, carrying the
mutable `candidates` / `remaining` state; the returned list collects the
rows appended to `chosen`, and the second component is the final
`remaining`. -/
def greedy_loop : ℕ → List Recipe → Finset String → List GreedyChoice × Finset String
  | 0, _, remaining => ([], remaining)
  | k + 1, candidates, remaining =>
    match select_best candidates remaining with
    | (none, _) => ([], remaining)
    | (some best, best_cover) =>
      if best_cover.card = 0 then ([], remaining)
      else
        let rest := greedy_loop k (candidates.erase best) (remaining \ best_cover)
        (⟨best, sortStr best_cover⟩ :: rest.1, rest.2)

/-- Source `greedy_recommendation`: returns the chosen rows and
`sorted(list(avail_norm - remaining))`.  The Python parameter `k` is an
int and `range(k)` makes `max(k, 0)` iterations, hence `k.toNat`. -/
def greedy_recommendation (recipes : List Recipe) (available_ings : List String)
    (k : Int) : List GreedyChoice × List String :=
  let avail_norm := availSet available_ings
  let res := greedy_loop k.toNat recipes avail_norm
  (res.1, sortStr (avail_norm \ res.2))

/-- Instantiation of `foldl_first_argmax` for `select_best`. -/
theorem select_best_cases (candidates : List Recipe) (remaining : Finset String) :
    (select_best candidates remaining = (none, ∅)
      ∧ ∀ r ∈ candidates, (reqSet r ∩ remaining).card ≤ 0)
    ∨ (∃ i, ∃ hi : i < candidates.length,
        select_best candidates remaining
          = (some (candidates.get ⟨i, hi⟩), reqSet (candidates.get ⟨i, hi⟩) ∩ remaining)
        ∧ 0 < (reqSet (candidates.get ⟨i, hi⟩) ∩ remaining).card
        ∧ (∀ j, ∀ hj : j < candidates.length,
            (reqSet (candidates.get ⟨j, hj⟩) ∩ remaining).card
              ≤ (reqSet (candidates.get ⟨i, hi⟩) ∩ remaining).card)
        ∧ (∀ j, ∀ hj : j < candidates.length, j < i →
            (reqSet (candidates.get ⟨j, hj⟩) ∩ remaining).card
              < (reqSet (candidates.get ⟨i, hi⟩) ∩ remaining).card)) := by
  have h := foldl_first_argmax
    (fun acc r =>
      let cover := reqSet r ∩ remaining
      if cover.card > acc.2.card then (some r, cover) else acc)
    (fun acc => acc.2.card)
    (fun r => (reqSet r ∩ remaining).card)
    (fun r => (some r, reqSet r ∩ remaining))
    (fun acc x => rfl) (fun x => rfl) candidates (none, (∅ : Finset String))
  rcases h with ⟨heq, hall⟩ | ⟨i, hi, heq, hgt, hmax, hfirst⟩
  · left
    refine ⟨?_, ?_⟩
    · rw [select_best, heq]
    · intro r hr
      simpa using hall r hr
  · right
    refine ⟨i, hi, ?_, by simpa using hgt, hmax, hfirst⟩
    rw [select_best, heq]

/-- Membership in `select_best`'s non-`None` answer: the winner is a
candidate, the paired set is its intersection with `remaining`, and that
intersection is non-empty. -/
theorem select_best_some {cands : List Recipe} {remaining : Finset String}
    {best : Recipe} {bc : Finset String}
    (h : select_best cands remaining = (some best, bc)) :
    best ∈ cands ∧ bc = reqSet best ∩ remaining ∧ 0 < bc.card := by
  rcases select_best_cases cands remaining with ⟨heq, _⟩ | ⟨i, hi, heq, hpos, _, _⟩
  · rw [h] at heq
    simp at heq
  · rw [h] at heq
    have h1 : best = cands.get ⟨i, hi⟩ := by
      have := congrArg Prod.fst heq
      simpa using this
    have h2 : bc = reqSet (cands.get ⟨i, hi⟩) ∩ remaining := congrArg Prod.snd heq
    refine ⟨?_, ?_, ?_⟩
    · rw [h1]; exact List.get_mem _ _ _
    · rw [h1, h2]
    · rw [h2]; exact hpos

/-- Union of the covered fields of a greedy result. -/
def coveredUnion (ch : List GreedyChoice) : Finset String :=
  ch.foldr (fun c acc => c.covered.toFinset ∪ acc) ∅

theorem coveredUnion_nil : coveredUnion [] = ∅ := rfl

theorem coveredUnion_cons (c : GreedyChoice) (ch : List GreedyChoice) :
    coveredUnion (c :: ch) = c.covered.toFinset ∪ coveredUnion ch := rfl

/-- Invariant bundle of the greedy loop: the final `remaining` shrinks, the
removed ingredients are exactly the union of the covered fields, every row
covers a non-empty sorted slice of both `remaining` and its recipe's
requirements, rows are pairwise disjoint, chosen recipes are drawn without
replacement from the candidate list, and at most `k` rows are produced. -/
theorem greedy_loop_spec :
    ∀ (k : ℕ) (cands : List Recipe) (remaining : Finset String),
      (greedy_loop k cands remaining).2 ⊆ remaining
      ∧ remaining \ (greedy_loop k cands remaining).2
          = coveredUnion (greedy_loop k cands remaining).1
      ∧ (∀ c ∈ (greedy_loop k cands remaining).1,
          c.covered ≠ [] ∧ c.covered.Sorted (· ≤ ·)
          ∧ c.covered.toFinset ⊆ remaining ∧ c.covered.toFinset ⊆ reqSet c.recipe)
      ∧ (greedy_loop k cands remaining).1.Pairwise
          (fun a b => a.covered.toFinset ∩ b.covered.toFinset = ∅)
      ∧ ((greedy_loop k cands remaining).1.map GreedyChoice.recipe).Subperm cands
      ∧ (greedy_loop k cands remaining).1.length ≤ k
      ∧ (cands.Nodup → ((greedy_loop k cands remaining).1.map GreedyChoice.recipe).Nodup) := by
  intro k
  induction k with
  | zero =>
    intro cands remaining
    refine ⟨Finset.Subset.refl _, by simp [greedy_loop, coveredUnion_nil], ?_, ?_, ?_, ?_, ?_⟩
    · intro c hc; cases hc
    · exact List.Pairwise.nil
    · exact List.nil_subperm
    · exact le_refl _
    · intro _; exact List.nodup_nil
  | succ k ih =>
    intro cands remaining
    rcases hsb : select_best cands remaining with ⟨ob, bc⟩
    cases ob with
    | none =>
      have hres : greedy_loop (k + 1) cands remaining = ([], remaining) := by
        rw [greedy_loop, hsb]
      rw [hres]
      refine ⟨Finset.Subset.refl _, by simp [coveredUnion_nil], ?_, ?_, ?_, ?_, ?_⟩
      · intro c hc; cases hc
      · exact List.Pairwise.nil
      · exact List.nil_subperm
      · exact Nat.zero_le _
      · intro _; exact List.nodup_nil
    | some best =>
      rcases select_best_some hsb with ⟨hbm, hbc, hpos⟩
      have hz : ¬ bc.card = 0 := Nat.pos_iff_ne_zero.mp hpos
      have hres : greedy_loop (k + 1) cands remaining
          = (⟨best, sortStr bc⟩
              :: (greedy_loop k (cands.erase best) (remaining \ bc)).1,
             (greedy_loop k (cands.erase best) (remaining \ bc)).2) := by
        rw [greedy_loop, hsb]
        simp only [if_neg hz]
      rcases ih (cands.erase best) (remaining \ bc) with
        ⟨ih1, ih2, ih3, ih4, ih5, ih6, ih7⟩
      have hbcsub : bc ⊆ remaining := by rw [hbc]; exact Finset.inter_subset_right
      have hrsub : (greedy_loop k (cands.erase best) (remaining \ bc)).2
          ⊆ remaining \ bc := ih1
      rw [hres]
      refine ⟨?_, ?_, ?_, ?_, ?_, ?_, ?_⟩
      · exact le_trans hrsub (Finset.sdiff_subset)
      · rw [coveredUnion_cons, ← ih2]
        simp only [sortStr_toFinset]
        ext x
        simp only [Finset.mem_sdiff, Finset.mem_union]
        constructor
        · rintro ⟨hxr, hxn⟩
          by_cases hxbc : x ∈ bc
          · exact Or.inl hxbc
          · exact Or.inr ⟨⟨hxr, hxbc⟩, hxn⟩
        · rintro (hxbc | ⟨⟨hxr, hxbc⟩, hxn⟩)
          · refine ⟨hbcsub hxbc, fun hx2 => ?_⟩
            exact (Finset.mem_sdiff.mp (hrsub hx2)).2 hxbc
          · exact ⟨hxr, hxn⟩
      · intro c hc
        rcases List.mem_cons.mp hc with rfl | hc'
        · refine ⟨?_, sortStr_sorted bc, ?_, ?_⟩
          · intro hnil
            have hnil' : sortStr bc = [] := hnil
            have := sortStr_length bc
            rw [hnil'] at this
            exact hz this.symm
          · rw [sortStr_toFinset]; exact hbcsub
          · rw [sortStr_toFinset, hbc]; exact Finset.inter_subset_left
        · rcases ih3 c hc' with ⟨h1, h2, h3, h4⟩
          exact ⟨h1, h2, le_trans h3 (Finset.sdiff_subset), h4⟩
      · rw [List.pairwise_cons]
        refine ⟨?_, ih4⟩
        intro c hc
        rcases ih3 c hc with ⟨_, _, h3, _⟩
        rw [sortStr_toFinset]
        ext x
        simp only [Finset.mem_inter, Finset.not_mem_empty, iff_false, not_and]
        intro hxbc hxc
        exact (Finset.mem_sdiff.mp (h3 hxc)).2 hxbc
      · rw [List.map_cons, List.subperm_ext_iff]
        intro y hy
        have hcle : ∀ z : Recipe,
            ((greedy_loop k (cands.erase best) (remaining \ bc)).1.map
              GreedyChoice.recipe).count z ≤ (cands.erase best).count z := by
          intro z
          by_cases hz' : z ∈ (greedy_loop k (cands.erase best) (remaining \ bc)).1.map
              GreedyChoice.recipe
          · exact List.subperm_ext_iff.mp ih5 z hz'
          · rw [List.count_eq_zero_of_not_mem hz']
            exact Nat.zero_le _
        by_cases hyb : y = best
        · subst hyb
          rw [List.count_cons_self]
          have h1 : (cands.erase y).count y = cands.count y - 1 := by
            rw [List.count_erase]; simp
          have h2 : 0 < cands.count y := List.count_pos_iff.mpr hbm
          have h3 := hcle y
          omega
        · rw [List.count_cons_of_ne hyb]
          have h1 : (cands.erase best).count y = cands.count y := by
            rw [List.count_erase]
            simp [Ne.symm hyb]
          have h3 := hcle y
          omega
      · simpa using Nat.succ_le_succ ih6
      · intro hnd
        rw [List.map_cons, List.nodup_cons]
        refine ⟨?_, ih7 (hnd.erase best)⟩
        intro hmem
        have hsub : (greedy_loop k (cands.erase best) (remaining \ bc)).1.map
            GreedyChoice.recipe ⊆ cands.erase best := ih5.subset
        have : best ∈ cands.erase best := hsub hmem
        have hcnt : cands.count best ≤ 1 := List.nodup_iff_count_le_one.mp hnd best
        have : 0 < (cands.erase best).count best := List.count_pos_iff.mpr this
        rw [List.count_erase] at this
        simp only [beq_self_eq_true, if_true] at this
        omega

/-- The best-so-far record of the backtracking search, initially
`{"recipes": [], "coverage_count": 0, "score_sum": 0, "covered": set()}`. -/
structure ComboSolution where
  recipes : List Recipe
  coverage_count : ℕ
  score_sum : ℚ
  covered : Finset String
deriving DecidableEq

/-- The update step at the head of `dfs`: replace the best-known solution
exactly when the current node is strictly better under primary key
`len(covered)` descending, secondary key `score_sum` descending. -/
def update_best (chosen : List Recipe) (covered : Finset String) (score_sum : ℚ)
    (best : ComboSolution) : ComboSolution :=
  if covered.card > best.coverage_count
      ∨ (covered.card = best.coverage_count ∧ score_sum > best.score_sum) then
    ⟨chosen, covered.card, score_sum, covered⟩
  else best

mutual

/-- Source `dfs(start, chosen, covered, score_sum)`: `rest` stands for the
suffix `candidates[start:]`, and the mutable `best_solution` dict becomes
an accumulator threaded through the recursion. -/
def dfs (avail : Finset String) (max_recipes : Int) (rest chosen : List Recipe)
    (covered : Finset String) (score_sum : ℚ) (best : ComboSolution) : ComboSolution :=
  let best1 := update_best chosen covered score_sum best
  if (chosen.length : Int) ≥ max_recipes then best1
  else dfsLoop avail max_recipes rest chosen covered score_sum best1
termination_by (rest.length, 1)

/-- The `for i in range(start, len(candidates))` loop inside `dfs`: each
iteration recurses into `dfs(i + 1, ...)` with the branch recipe appended,
its overlap united into `covered` and its full-set score added. -/
def dfsLoop (avail : Finset String) (max_recipes : Int) (rest chosen : List Recipe)
    (covered : Finset String) (score_sum : ℚ) (best : ComboSolution) : ComboSolution :=
  match rest with
  | [] => best
  | r :: rs =>
    let best2 := dfs avail max_recipes rs (chosen ++ [r])
      (covered ∪ (reqSet r ∩ avail)) (score_sum + (match_score r avail).1) best
    dfsLoop avail max_recipes rs chosen covered score_sum best2
termination_by (rest.length, 0)

end

/-- Source `backtracking_best_combo`: restrict candidates to recipes with
some intersection, then run the search from the empty selection. -/
def backtracking_best_combo (recipes : List Recipe) (available_ings : List String)
    (max_recipes : Int) : ComboSolution :=
  let avail_norm := availSet available_ings
  let candidates := recipes.filter (fun r => decide ((reqSet r ∩ avail_norm) ≠ ∅))
  dfs avail_norm max_recipes candidates [] ∅ 0 ⟨[], 0, 0, ∅⟩

mutual

/-- The nodes of the search tree of `dfs`, in depth-first visit order: each
node records the `(chosen, covered, score_sum)` state at which `dfs`
compares against the best-known solution. -/
def visits (avail : Finset String) (max_recipes : Int) (rest chosen : List Recipe)
    (covered : Finset String) (score_sum : ℚ) :
    List (List Recipe × Finset String × ℚ) :=
  (chosen, covered, score_sum) ::
    (if (chosen.length : Int) ≥ max_recipes then []
     else visitsLoop avail max_recipes rest chosen covered score_sum)
termination_by (rest.length, 1)

/-- The nodes visited by the candidate loop of `dfs`, in visit order. -/
def visitsLoop (avail : Finset String) (max_recipes : Int) (rest chosen : List Recipe)
    (covered : Finset String) (score_sum : ℚ) :
    List (List Recipe × Finset String × ℚ) :=
  match rest with
  | [] => []
  | r :: rs =>
    visits avail max_recipes rs (chosen ++ [r]) (covered ∪ (reqSet r ∩ avail))
        (score_sum + (match_score r avail).1)
      ++ visitsLoop avail max_recipes rs chosen covered score_sum
termination_by (rest.length, 0)

end

/-- Replay of the best-solution updates over a list of visited nodes. -/
def runBest (nodes : List (List Recipe × Finset String × ℚ)) (best : ComboSolution) :
    ComboSolution :=
  nodes.foldl (fun b n => update_best n.1 n.2.1 n.2.2 b) best

/-- Comparison key of a visited node: `(len(covered), score_sum)` under the
lexicographic order the update step implements. -/
def nkey (node : List Recipe × Finset String × ℚ) : ℕ ×ₗ ℚ :=
  toLex (node.2.1.card, node.2.2)

/-- Comparison key of a best-so-far solution. -/
def bkey (b : ComboSolution) : ℕ ×ₗ ℚ := toLex (b.coverage_count, b.score_sum)

/-- The solution record a node produces when it replaces the best. -/
def mkSol (node : List Recipe × Finset String × ℚ) : ComboSolution :=
  ⟨node.1, node.2.1.card, node.2.2, node.2.1⟩

/-- Cumulative covered set of a chosen sublist, against the full available
set: the union of `req & avail_norm` over its members. -/
def coverU (avail : Finset String) (s : List Recipe) : Finset String :=
  s.foldr (fun r acc => (reqSet r ∩ avail) ∪ acc) ∅

/-- Sum of the individual `match_score` values of a chosen sublist against
the full available set. -/
def sumScores (avail : Finset String) (s : List Recipe) : ℚ :=
  (s.map (fun r => (match_score r avail).1)).sum

theorem update_best_eq (b : ComboSolution) (n : List Recipe × Finset String × ℚ) :
    update_best n.1 n.2.1 n.2.2 b = if bkey b < nkey n then mkSol n else b := by
  unfold update_best mkSol
  refine if_congr ?_ rfl rfl
  rw [bkey, nkey, Prod.Lex.lt_iff]
  constructor
  · rintro (h | ⟨h1, h2⟩)
    · exact Or.inl h
    · exact Or.inr ⟨h1.symm, h2⟩
  · rintro (h | ⟨h1, h2⟩)
    · exact Or.inl h
    · exact Or.inr ⟨h1.symm, h2⟩

theorem bkey_mkSol (n : List Recipe × Finset String × ℚ) : bkey (mkSol n) = nkey n := rfl

/-- Instantiation of `foldl_first_argmax` for the best-solution replay. -/
theorem runBest_cases (nodes : List (List Recipe × Finset String × ℚ))
    (best : ComboSolution) :
    (runBest nodes best = best ∧ ∀ n ∈ nodes, nkey n ≤ bkey best)
    ∨ (∃ i, ∃ hi : i < nodes.length,
        runBest nodes best = mkSol (nodes.get ⟨i, hi⟩)
        ∧ bkey best < nkey (nodes.get ⟨i, hi⟩)
        ∧ (∀ j, ∀ hj : j < nodes.length,
            nkey (nodes.get ⟨j, hj⟩) ≤ nkey (nodes.get ⟨i, hi⟩))
        ∧ (∀ j, ∀ hj : j < nodes.length, j < i →
            nkey (nodes.get ⟨j, hj⟩) < nkey (nodes.get ⟨i, hi⟩))) := by
  have h := foldl_first_argmax
    (fun b n => update_best n.1 n.2.1 n.2.2 b) bkey nkey mkSol
    update_best_eq bkey_mkSol nodes best
  exact h

theorem dfs_eq_def (avail : Finset String) (mr : Int) (rest chosen : List Recipe)
    (covered : Finset String) (ssum : ℚ) (best : ComboSolution) :
    dfs avail mr rest chosen covered ssum best
      = if (chosen.length : Int) ≥ mr then update_best chosen covered ssum best
        else dfsLoop avail mr rest chosen covered ssum
          (update_best chosen covered ssum best) := by
  rw [dfs]

theorem dfsLoop_nil (avail : Finset String) (mr : Int) (chosen : List Recipe)
    (covered : Finset String) (ssum : ℚ) (best : ComboSolution) :
    dfsLoop avail mr [] chosen covered ssum best = best := by
  rw [dfsLoop]

theorem dfsLoop_cons (avail : Finset String) (mr : Int) (r : Recipe)
    (rs chosen : List Recipe) (covered : Finset String) (ssum : ℚ)
    (best : ComboSolution) :
    dfsLoop avail mr (r :: rs) chosen covered ssum best
      = dfsLoop avail mr rs chosen covered ssum
          (dfs avail mr rs (chosen ++ [r]) (covered ∪ (reqSet r ∩ avail))
            (ssum + (match_score r avail).1) best) := by
  rw [dfsLoop]

theorem visits_eq_def (avail : Finset String) (mr : Int) (rest chosen : List Recipe)
    (covered : Finset String) (ssum : ℚ) :
    visits avail mr rest chosen covered ssum
      = (chosen, covered, ssum) ::
          (if (chosen.length : Int) ≥ mr then []
           else visitsLoop avail mr rest chosen covered ssum) := by
  rw [visits]

theorem visitsLoop_nil (avail : Finset String) (mr : Int) (chosen : List Recipe)
    (covered : Finset String) (ssum : ℚ) :
    visitsLoop avail mr [] chosen covered ssum = [] := by
  rw [visitsLoop]

theorem visitsLoop_cons (avail : Finset String) (mr : Int) (r : Recipe)
    (rs chosen : List Recipe) (covered : Finset String) (ssum : ℚ) :
    visitsLoop avail mr (r :: rs) chosen covered ssum
      = visits avail mr rs (chosen ++ [r]) (covered ∪ (reqSet r ∩ avail))
          (ssum + (match_score r avail).1)
        ++ visitsLoop avail mr rs chosen covered ssum := by
  rw [visitsLoop]

theorem runBest_nil (best : ComboSolution) : runBest [] best = best := rfl

theorem runBest_cons (n : List Recipe × Finset String × ℚ)
    (ns : List (List Recipe × Finset String × ℚ)) (best : ComboSolution) :
    runBest (n :: ns) best = runBest ns (update_best n.1 n.2.1 n.2.2 best) := rfl

theorem runBest_append (as bs : List (List Recipe × Finset String × ℚ))
    (best : ComboSolution) :
    runBest (as ++ bs) best = runBest bs (runBest as best) :=
  List.foldl_append _ _ _ _

/-- The candidate loop of `dfs` computes exactly the best-update replay
over its visit list. -/
theorem dfsLoop_runBest :
    ∀ (n : ℕ) (avail : Finset String) (mr : Int) (rest chosen : List Recipe)
      (covered : Finset String) (ssum : ℚ) (best : ComboSolution),
      rest.length ≤ n →
      dfsLoop avail mr rest chosen covered ssum best
        = runBest (visitsLoop avail mr rest chosen covered ssum) best := by
  intro n
  induction n with
  | zero =>
    intro avail mr rest chosen covered ssum best hlen
    have hnil : rest = [] := List.length_eq_zero.mp (Nat.le_zero.mp hlen)
    subst hnil
    rw [dfsLoop_nil, visitsLoop_nil, runBest_nil]
  | succ n ih =>
    intro avail mr rest chosen covered ssum best hlen
    cases rest with
    | nil => rw [dfsLoop_nil, visitsLoop_nil, runBest_nil]
    | cons r rs =>
      have hrs : rs.length ≤ n := by
        have : rs.length + 1 ≤ n + 1 := by simpa using hlen
        omega
      have hdfs : dfs avail mr rs (chosen ++ [r]) (covered ∪ (reqSet r ∩ avail))
          (ssum + (match_score r avail).1) best
          = runBest (visits avail mr rs (chosen ++ [r]) (covered ∪ (reqSet r ∩ avail))
              (ssum + (match_score r avail).1)) best := by
        rw [dfs_eq_def, visits_eq_def]
        by_cases hg : ((chosen ++ [r]).length : Int) ≥ mr
        · rw [if_pos hg, if_pos hg, runBest_cons, runBest_nil]
        · rw [if_neg hg, if_neg hg, runBest_cons]
          exact ih avail mr rs _ _ _ _ hrs
      rw [dfsLoop_cons, hdfs, ih avail mr rs chosen covered ssum _ hrs,
        visitsLoop_cons, runBest_append]

/-- The whole search computes the best-update replay over its visit list. -/
theorem dfs_runBest (avail : Finset String) (mr : Int) (rest chosen : List Recipe)
    (covered : Finset String) (ssum : ℚ) (best : ComboSolution) :
    dfs avail mr rest chosen covered ssum best
      = runBest (visits avail mr rest chosen covered ssum) best := by
  rw [dfs_eq_def, visits_eq_def]
  by_cases hg : (chosen.length : Int) ≥ mr
  · rw [if_pos hg, if_pos hg, runBest_cons, runBest_nil]
  · rw [if_neg hg, if_neg hg, runBest_cons]
    exact dfsLoop_runBest rest.length avail mr rest _ _ _ _ (le_refl _)

theorem coverU_nil (avail : Finset String) : coverU avail [] = ∅ := rfl

theorem coverU_cons (avail : Finset String) (r : Recipe) (s : List Recipe) :
    coverU avail (r :: s) = (reqSet r ∩ avail) ∪ coverU avail s := rfl

theorem sumScores_nil (avail : Finset String) : sumScores avail [] = 0 := rfl

theorem sumScores_cons (avail : Finset String) (r : Recipe) (s : List Recipe) :
    sumScores avail (r :: s) = (match_score r avail).1 + sumScores avail s := by
  simp [sumScores]

/-- Soundness of the candidate-loop visit list: every visited node extends
`chosen` by a non-empty sublist of `rest`, with the matching covered set,
score sum, and length bound. -/
theorem visitsLoop_sound :
    ∀ (n : ℕ) (avail : Finset String) (mr : Int) (rest chosen : List Recipe)
      (covered : Finset String) (ssum : ℚ),
      rest.length ≤ n → (chosen.length : Int) < mr →
      ∀ node ∈ visitsLoop avail mr rest chosen covered ssum,
        ∃ s : List Recipe, s.Sublist rest ∧ s ≠ []
          ∧ node.1 = chosen ++ s
          ∧ node.2.1 = covered ∪ coverU avail s
          ∧ node.2.2 = ssum + sumScores avail s
          ∧ ((chosen.length : Int) + s.length ≤ mr) := by
  intro n
  induction n with
  | zero =>
    intro avail mr rest chosen covered ssum hlen _ node hnode
    have hnil : rest = [] := List.length_eq_zero.mp (Nat.le_zero.mp hlen)
    subst hnil
    rw [visitsLoop_nil] at hnode
    cases hnode
  | succ n ih =>
    intro avail mr rest chosen covered ssum hlen hlt node hnode
    cases rest with
    | nil =>
      rw [visitsLoop_nil] at hnode
      cases hnode
    | cons r rs =>
      have hrs : rs.length ≤ n := by
        have : rs.length + 1 ≤ n + 1 := by simpa using hlen
        omega
      rw [visitsLoop_cons] at hnode
      rcases List.mem_append.mp hnode with hmem | hmem
      · rw [visits_eq_def] at hmem
        rcases List.mem_cons.mp hmem with heq | htail
        · refine ⟨[r], by simp, by simp, ?_, ?_, ?_, ?_⟩
          · rw [heq]
          · rw [heq]
            simp [coverU_cons, coverU_nil]
          · rw [heq]
            simp [sumScores_cons, sumScores_nil]
          · simp only [List.length_singleton]
            omega
        · by_cases hg : (((chosen ++ [r]).length : ℕ) : Int) ≥ mr
          · rw [if_pos hg] at htail
            cases htail
          · rw [if_neg hg] at htail
            have hlt' : (((chosen ++ [r]).length : ℕ) : Int) < mr := lt_of_not_ge hg
            rcases ih avail mr rs (chosen ++ [r]) _ _ hrs hlt' node htail with
              ⟨s', hsub, hne, h1, h2, h3, h4⟩
            refine ⟨r :: s', List.Sublist.cons₂ r hsub, by simp, ?_, ?_, ?_, ?_⟩
            · rw [h1]; simp
            · rw [h2, coverU_cons, Finset.union_assoc]
            · rw [h3, sumScores_cons]; ring
            · simp only [List.length_append, List.length_singleton] at h4
              simp only [List.length_cons]
              push_cast at h4 ⊢
              omega
      · rcases ih avail mr rs chosen covered ssum hrs hlt node hmem with
          ⟨s', hsub, hne, h1, h2, h3, h4⟩
        exact ⟨s', hsub.cons r, hne, h1, h2, h3, h4⟩

/-- Soundness of the whole visit list. -/
theorem visits_sound (avail : Finset String) (mr : Int) (rest chosen : List Recipe)
    (covered : Finset String) (ssum : ℚ) :
    ∀ node ∈ visits avail mr rest chosen covered ssum,
      ∃ s : List Recipe, s.Sublist rest
        ∧ node.1 = chosen ++ s
        ∧ node.2.1 = covered ∪ coverU avail s
        ∧ node.2.2 = ssum + sumScores avail s
        ∧ (s = [] ∨ (chosen.length : Int) + s.length ≤ mr) := by
  intro node hnode
  rw [visits_eq_def] at hnode
  rcases List.mem_cons.mp hnode with heq | htail
  · refine ⟨[], List.nil_sublist _, ?_, ?_, ?_, Or.inl rfl⟩
    · rw [heq]; simp
    · rw [heq]; simp [coverU_nil]
    · rw [heq]; simp [sumScores_nil]
  · by_cases hg : ((chosen.length : ℕ) : Int) ≥ mr
    · rw [if_pos hg] at htail
      cases htail
    · rw [if_neg hg] at htail
      rcases visitsLoop_sound rest.length avail mr rest chosen covered ssum
        (le_refl _) (lt_of_not_ge hg) node htail with ⟨s, hsub, _, h1, h2, h3, h4⟩
      exact ⟨s, hsub, h1, h2, h3, Or.inr h4⟩

/-- Completeness of the candidate-loop visit list: every non-empty sublist
of `rest` that fits in the remaining budget is visited. -/
theorem visitsLoop_complete :
    ∀ (n : ℕ) (avail : Finset String) (mr : Int) (rest chosen : List Recipe)
      (covered : Finset String) (ssum : ℚ) (s : List Recipe),
      rest.length ≤ n → s.Sublist rest → s ≠ [] →
      ((chosen.length : Int) + s.length ≤ mr) →
      (chosen ++ s, covered ∪ coverU avail s, ssum + sumScores avail s)
        ∈ visitsLoop avail mr rest chosen covered ssum := by
  intro n
  induction n with
  | zero =>
    intro avail mr rest chosen covered ssum s hlen hsub hne _
    have hnil : rest = [] := List.length_eq_zero.mp (Nat.le_zero.mp hlen)
    subst hnil
    exact absurd (List.sublist_nil.mp hsub) hne
  | succ n ih =>
    intro avail mr rest chosen covered ssum s hlen hsub hne hbound
    cases rest with
    | nil => exact absurd (List.sublist_nil.mp hsub) hne
    | cons r rs =>
      have hrs : rs.length ≤ n := by
        have : rs.length + 1 ≤ n + 1 := by simpa using hlen
        omega
      rw [visitsLoop_cons]
      cases hsub with
      | cons _ h =>
        exact List.mem_append_right _ (ih avail mr rs chosen covered ssum s hrs h hne hbound)
      | cons₂ _ h =>
        rename_i s'
        apply List.mem_append_left
        rw [visits_eq_def]
        by_cases hs' : s' = []
        · subst hs'
          have heq : ((chosen ++ [r] : List Recipe), covered ∪ coverU avail [r],
              ssum + sumScores avail [r])
              = ((chosen ++ [r] : List Recipe), covered ∪ (reqSet r ∩ avail),
                ssum + (match_score r avail).1) := by
            simp [coverU_cons, coverU_nil, sumScores_cons, sumScores_nil]
          rw [heq]
          exact List.mem_cons_self _ _
        · have hg : ¬ (((chosen ++ [r]).length : ℕ) : Int) ≥ mr := by
            have hlen1 : 1 ≤ s'.length := List.length_pos.mpr hs'
            simp only [List.length_append, List.length_singleton]
            simp only [List.length_cons] at hbound
            push_cast at hbound ⊢
            omega
          rw [if_neg hg]
          apply List.mem_cons_of_mem
          have hbound' : (((chosen ++ [r]).length : ℕ) : Int) + s'.length ≤ mr := by
            simp only [List.length_append, List.length_singleton]
            simp only [List.length_cons] at hbound
            push_cast at hbound ⊢
            omega
          have hmem := ih avail mr rs (chosen ++ [r]) (covered ∪ (reqSet r ∩ avail))
            (ssum + (match_score r avail).1) s' hrs h hs' hbound'
          have heq : (((chosen ++ [r]) ++ s' : List Recipe),
              (covered ∪ (reqSet r ∩ avail)) ∪ coverU avail s',
              (ssum + (match_score r avail).1) + sumScores avail s')
              = ((chosen ++ r :: s' : List Recipe), covered ∪ coverU avail (r :: s'),
                ssum + sumScores avail (r :: s')) := by
            refine Prod.ext ?_ (Prod.ext ?_ ?_)
            · simp
            · rw [coverU_cons, Finset.union_assoc]
            · rw [sumScores_cons]; ring
          rw [← heq]
          exact hmem

/-- Completeness of the whole visit list: every sublist of `rest` that is
empty or fits in the remaining budget is visited. -/
theorem visits_complete (avail : Finset String) (mr : Int) (rest chosen : List Recipe)
    (covered : Finset String) (ssum : ℚ) (s : List Recipe)
    (hsub : s.Sublist rest)
    (hbound : s = [] ∨ (chosen.length : Int) + s.length ≤ mr) :
    (chosen ++ s, covered ∪ coverU avail s, ssum + sumScores avail s)
      ∈ visits avail mr rest chosen covered ssum := by
  rw [visits_eq_def]
  by_cases hs : s = []
  · subst hs
    have heq : ((chosen ++ [] : List Recipe), covered ∪ coverU avail [],
        ssum + sumScores avail [])
        = ((chosen : List Recipe), covered, ssum) := by
      simp [coverU_nil, sumScores_nil]
    rw [heq]
    exact List.mem_cons_self _ _
  · have hbound' : (chosen.length : Int) + s.length ≤ mr := hbound.resolve_left hs
    have hg : ¬ ((chosen.length : ℕ) : Int) ≥ mr := by
      have hlen1 : 1 ≤ s.length := List.length_pos.mpr hs
      push_cast at hbound' ⊢
      omega
    rw [if_neg hg]
    exact List.mem_cons_of_mem _
      (visitsLoop_complete rest.length avail mr rest chosen covered ssum s
        (le_refl _) hsub hs hbound')

theorem mem_coverU (avail : Finset String) (s : List Recipe) (x : String) :
    x ∈ coverU avail s ↔ ∃ r ∈ s, x ∈ reqSet r ∩ avail := by
  induction s with
  | nil => simp [coverU_nil]
  | cons r s ih =>
    rw [coverU_cons]
    simp only [Finset.mem_union, ih, List.mem_cons]
    constructor
    · rintro (h | ⟨r', hr', hx⟩)
      · exact ⟨r, Or.inl rfl, h⟩
      · exact ⟨r', Or.inr hr', hx⟩
    · rintro ⟨r', hr' | hr', hx⟩
      · exact Or.inl (hr' ▸ hx)
      · exact Or.inr ⟨r', hr', hx⟩

theorem coverU_subset_avail (avail : Finset String) (s : List Recipe) :
    coverU avail s ⊆ avail := by
  intro x hx
  rcases (mem_coverU avail s x).mp hx with ⟨r, _, hx'⟩
  exact (Finset.mem_inter.mp hx').2

theorem coverU_perm (avail : Finset String) {s t : List Recipe} (h : s.Perm t) :
    coverU avail s = coverU avail t := by
  ext x
  rw [mem_coverU, mem_coverU]
  constructor
  · rintro ⟨r, hr, hx⟩
    exact ⟨r, h.mem_iff.mp hr, hx⟩
  · rintro ⟨r, hr, hx⟩
    exact ⟨r, h.mem_iff.mpr hr, hx⟩

theorem mem_coveredUnion (ch : List GreedyChoice) (x : String) :
    x ∈ coveredUnion ch ↔ ∃ c ∈ ch, x ∈ c.covered.toFinset := by
  induction ch with
  | nil => simp [coveredUnion_nil]
  | cons c ch ih =>
    rw [coveredUnion_cons]
    simp only [Finset.mem_union, ih, List.mem_cons]
    constructor
    · rintro (h | ⟨c', hc', hx⟩)
      · exact ⟨c, Or.inl rfl, h⟩
      · exact ⟨c', Or.inr hc', hx⟩
    · rintro ⟨c', hc' | hc', hx⟩
      · exact Or.inl (hc' ▸ hx)
      · exact Or.inr ⟨c', hc', hx⟩

theorem lex_le_fst {a c : ℕ} {b d : ℚ} (h : toLex (a, b) ≤ toLex (c, d)) : a ≤ c := by
  rcases (Prod.Lex.le_iff (a, b) (c, d)).mp h with h' | ⟨h', _⟩
  · exact le_of_lt h'
  · exact le_of_eq h'

/-- The replayed best solution covers at least as much as any visited node. -/
theorem runBest_ge_nodes (nodes : List (List Recipe × Finset String × ℚ))
    (best : ComboSolution) :
    ∀ node ∈ nodes, node.2.1.card ≤ (runBest nodes best).coverage_count := by
  intro node hnode
  rcases runBest_cases nodes best with ⟨heq, hall⟩ | ⟨i, hi, heq, _, hmax, _⟩
  · rw [heq]
    have h := hall node hnode
    have hb : bkey best = toLex (best.coverage_count, best.score_sum) := rfl
    have hn : nkey node = toLex (node.2.1.card, node.2.2) := rfl
    rw [hb, hn] at h
    exact lex_le_fst h
  · rw [heq]
    rcases List.mem_iff_get.mp hnode with ⟨⟨j, hj⟩, hget⟩
    have h := hmax j hj
    rw [hget] at h
    have hn : nkey node = toLex (node.2.1.card, node.2.2) := rfl
    have hi' : nkey (nodes.get ⟨i, hi⟩)
        = toLex ((nodes.get ⟨i, hi⟩).2.1.card, (nodes.get ⟨i, hi⟩).2.2) := rfl
    rw [hn, hi'] at h
    exact lex_le_fst h

/-- The replayed best solution is the initial record or comes from a node. -/
theorem runBest_shape (nodes : List (List Recipe × Finset String × ℚ))
    (best : ComboSolution) :
    runBest nodes best = best ∨ ∃ node ∈ nodes, runBest nodes best = mkSol node := by
  rcases runBest_cases nodes best with ⟨heq, _⟩ | ⟨i, hi, heq, _, _, _⟩
  · exact Or.inl heq
  · exact Or.inr ⟨nodes.get ⟨i, hi⟩, List.get_mem _ _ _, heq⟩

/-- A sub-multiset whose members all satisfy `p` is a sub-multiset of the
filtered list. -/
theorem subperm_filter_of_all {l₁ l₂ : List Recipe} (p : Recipe → Bool)
    (hsp : l₁.Subperm l₂) (hall : ∀ x ∈ l₁, p x = true) :
    l₁.Subperm (l₂.filter p) := by
  rw [List.subperm_ext_iff] at hsp ⊢
  intro x hx
  rw [List.count_filter (hall x hx)]
  exact hsp x hx

/-- The depth-first visit list of the whole combo search, from the empty
selection over the filtered candidate list. -/
def comboVisits (recipes : List Recipe) (available_ings : List String) (mr : Int) :
    List (List Recipe × Finset String × ℚ) :=
  visits (availSet available_ings) mr
    (recipes.filter (fun r => decide ((reqSet r ∩ availSet available_ings) ≠ ∅)))
    [] ∅ 0

theorem backtracking_eq_runBest (recipes : List Recipe) (available_ings : List String)
    (mr : Int) :
    backtracking_best_combo recipes available_ings mr
      = runBest (comboVisits recipes available_ings mr) ⟨[], 0, 0, ∅⟩ :=
  dfs_runBest _ _ _ _ _ _ _

/-- C8: a non-positive `k` yields the empty greedy result and the empty
combo solution, not an error; and when no catalog recipe's requirements
intersect the available set, the combo search returns the empty solution
`(recipes = [], coverage_count = 0, score_sum = 0, covered = ∅)`. -/
theorem degenerate_inputs (recipes : List Recipe) (available_ings : List String)
    (k : Int) :
    (k ≤ 0 →
      greedy_recommendation recipes available_ings k = ([], [])
      ∧ backtracking_best_combo recipes available_ings k = ⟨[], 0, 0, ∅⟩)
    ∧ ((∀ r ∈ recipes, reqSet r ∩ availSet available_ings = ∅) →
      backtracking_best_combo recipes available_ings k = ⟨[], 0, 0, ∅⟩) := by
  constructor
  · intro hk
    constructor
    · have h0 : k.toNat = 0 := Int.toNat_of_nonpos hk
      simp [greedy_recommendation, h0, greedy_loop, Finset.sdiff_self, sortStr]
    · have hbt : backtracking_best_combo recipes available_ings k
          = dfs (availSet available_ings) k
              (recipes.filter
                (fun r => decide ((reqSet r ∩ availSet available_ings) ≠ ∅)))
              [] ∅ 0 ⟨[], 0, 0, ∅⟩ := rfl
      rw [hbt, dfs_eq_def, if_pos (by simpa using hk)]
      simp [update_best]
  · intro hall
    have hflt : recipes.filter
        (fun r => decide ((reqSet r ∩ availSet available_ings) ≠ ∅)) = [] := by
      rw [List.filter_eq_nil_iff]
      intro r hr
      simp [hall r hr]
    have hbt : backtracking_best_combo recipes available_ings k
        = dfs (availSet available_ings) k
            (recipes.filter
              (fun r => decide ((reqSet r ∩ availSet available_ings) ≠ ∅)))
            [] ∅ 0 ⟨[], 0, 0, ∅⟩ := rfl
    rw [hbt, hflt, dfs_eq_def]
    by_cases hg : ((([] : List Recipe).length : ℕ) : Int) ≥ k
    · rw [if_pos hg]
      simp [update_best]
    · rw [if_neg hg, dfsLoop_nil]
      simp [update_best]

/-- C7: the combo solution holds at most `max_recipes` recipes with no
recipe repeated, its covered set is a subset of the normalized available
set, and `coverage_count` equals the cardinality of `covered`. -/
theorem combo_solution_wf (recipes : List Recipe) (available_ings : List String)
    (mr : Int) (hnd : recipes.Nodup) (hm : 0 ≤ mr) :
    ((backtracking_best_combo recipes available_ings mr).recipes.length : Int) ≤ mr
    ∧ (backtracking_best_combo recipes available_ings mr).recipes.Nodup
    ∧ (backtracking_best_combo recipes available_ings mr).covered
        ⊆ availSet available_ings
    ∧ (backtracking_best_combo recipes available_ings mr).coverage_count
        = (backtracking_best_combo recipes available_ings mr).covered.card := by
  rw [backtracking_eq_runBest]
  rcases runBest_shape (comboVisits recipes available_ings mr) ⟨[], 0, 0, ∅⟩ with
    heq | ⟨node, hnode, heq⟩
  · rw [heq]
    exact ⟨by simpa using hm, List.nodup_nil, by simp, by simp⟩
  · rw [heq]
    rcases visits_sound _ _ _ _ _ _ node hnode with ⟨s, hsub, h1, h2, hb⟩
    rcases hb with ⟨_, hb⟩
    refine ⟨?_, ?_, ?_, rfl⟩
    · rw [show (mkSol node).recipes = node.1 from rfl, h1]
      simp only [List.nil_append]
      rcases hb with hs | hb
      · rw [hs]; simpa using hm
      · simpa using hb
    · rw [show (mkSol node).recipes = node.1 from rfl, h1]
      simp only [List.nil_append]
      exact hsub.nodup (hnd.filter _)
    · rw [show (mkSol node).covered = node.2.1 from rfl, h2]
      simp only [Finset.empty_union]
      exact coverU_subset_avail _ _

/-- C2: exhaustive search dominates the greedy heuristic — for the same
input and the same `k`, the combo solution's `coverage_count` is at least
the number of ingredients in the greedy `total_covered`. -/
theorem combo_dominates_greedy (recipes : List Recipe) (available_ings : List String)
    (k : Int) :
    (greedy_recommendation recipes available_ings k).2.length
      ≤ (backtracking_best_combo recipes available_ings k).coverage_count := by
  rcases greedy_loop_spec k.toNat recipes (availSet available_ings) with
    ⟨h1, h2, h3, h4, h5, h6, h7⟩
  have hg2 : (greedy_recommendation recipes available_ings k).2
      = sortStr (availSet available_ings
          \ (greedy_loop k.toNat recipes (availSet available_ings)).2) := rfl
  have hallp : ∀ r ∈ (greedy_loop k.toNat recipes (availSet available_ings)).1.map
      GreedyChoice.recipe, (fun r => decide ((reqSet r ∩ availSet available_ings) ≠ ∅)) r
        = true := by
    intro r hr
    rcases List.mem_map.mp hr with ⟨c, hc, rfl⟩
    rcases h3 c hc with ⟨hne, _, hsubA, hsubR⟩
    rw [decide_eq_true_eq]
    intro hempty
    have hsubI : c.covered.toFinset ⊆ reqSet c.recipe ∩ availSet available_ings :=
      Finset.subset_inter hsubR hsubA
    rw [hempty] at hsubI
    have := Finset.subset_empty.mp hsubI
    exact hne (by simpa using this)
  have hsp := subperm_filter_of_all _ h5 hallp
  obtain ⟨s, hperm, hsub⟩ := hsp
  have hslen : s.length ≤ k.toNat := by
    rw [hperm.length_eq, List.length_map]
    exact h6
  have hbound : s = [] ∨ ((([] : List Recipe).length : ℕ) : Int) + s.length ≤ k := by
    by_cases hs : s = []
    · exact Or.inl hs
    · right
      have hlen1 : 1 ≤ s.length := List.length_pos.mpr hs
      simp only [List.length_nil, Nat.cast_zero]
      omega
  have hnode : (([] : List Recipe) ++ s,
      (∅ : Finset String) ∪ coverU (availSet available_ings) s,
      (0 : ℚ) + sumScores (availSet available_ings) s)
        ∈ comboVisits recipes available_ings k :=
    visits_complete _ _ _ _ _ _ s hsub hbound
  have hge := runBest_ge_nodes (comboVisits recipes available_ings k) ⟨[], 0, 0, ∅⟩
    _ hnode
  rw [backtracking_eq_runBest]
  have hcard : (availSet available_ings
      \ (greedy_loop k.toNat recipes (availSet available_ings)).2).card
      ≤ ((∅ : Finset String) ∪ coverU (availSet available_ings) s).card := by
    simp only [Finset.empty_union]
    apply Finset.card_le_card
    rw [h2, coverU_perm (availSet available_ings) hperm]
    intro x hx
    rcases (mem_coveredUnion _ x).mp hx with ⟨c, hc, hxc⟩
    rcases h3 c hc with ⟨_, _, hsubA, hsubR⟩
    rw [mem_coverU]
    exact ⟨c.recipe, List.mem_map_of_mem _ hc,
      Finset.mem_inter.mpr ⟨hsubR hxc, hsubA hxc⟩⟩
  calc (greedy_recommendation recipes available_ings k).2.length
      = (availSet available_ings
          \ (greedy_loop k.toNat recipes (availSet available_ings)).2).card := by
        rw [hg2, sortStr_length]
    _ ≤ ((∅ : Finset String) ∪ coverU (availSet available_ings) s).card := hcard
    _ ≤ (runBest (comboVisits recipes available_ings k) ⟨[], 0, 0, ∅⟩).coverage_count :=
        hge

theorem get_of_eq {α : Type} {l₁ l₂ : List α} (h : l₁ = l₂) (i : ℕ)
    (hi : i < l₁.length) : l₁.get ⟨i, hi⟩ = l₂.get ⟨i, h ▸ hi⟩ := by
  subst h
  rfl

/-- C5: along the combo search the accumulated `score_sum` of every visited
node is the sum of its chosen recipes' individual Scorer scores against the
full available set (not a shrinking remaining set), and the returned
solution is realized at a visited node whose key `(|covered|, score_sum)`
is lexicographically maximal and which is the first node attaining that key
in depth-first, lower-index-first order: a candidate replaces the best only
when strictly better, so ties keep the first-found solution. -/
theorem dfs_score_accounting (recipes : List Recipe) (available_ings : List String)
    (mr : Int) :
    (∀ node ∈ comboVisits recipes available_ings mr,
      node.2.2 = sumScores (availSet available_ings) node.1)
    ∧ (∃ i, ∃ hi : i < (comboVisits recipes available_ings mr).length,
        backtracking_best_combo recipes available_ings mr
          = mkSol ((comboVisits recipes available_ings mr).get ⟨i, hi⟩)
        ∧ (∀ j, ∀ hj : j < (comboVisits recipes available_ings mr).length,
            nkey ((comboVisits recipes available_ings mr).get ⟨j, hj⟩)
              ≤ nkey ((comboVisits recipes available_ings mr).get ⟨i, hi⟩))
        ∧ (∀ j, ∀ hj : j < (comboVisits recipes available_ings mr).length, j < i →
            nkey ((comboVisits recipes available_ings mr).get ⟨j, hj⟩)
              < nkey ((comboVisits recipes available_ings mr).get ⟨i, hi⟩))) := by
  constructor
  · intro node hnode
    rcases visits_sound _ _ _ _ _ _ node hnode with ⟨s, _, h1, _, hssum, _⟩
    rw [hssum, h1]
    simp
  · have hbt := backtracking_eq_runBest recipes available_ings mr
    rcases runBest_cases (comboVisits recipes available_ings mr) ⟨[], 0, 0, ∅⟩ with
      ⟨heq, hall⟩ | ⟨i, hi, heq, _, hmax, hfirst⟩
    · have hcv : comboVisits recipes available_ings mr
          = ((([] : List Recipe), (∅ : Finset String), (0 : ℚ)) ::
              (if ((([] : List Recipe).length : ℕ) : Int) ≥ mr then []
               else visitsLoop (availSet available_ings) mr
                 (recipes.filter
                   (fun r => decide ((reqSet r ∩ availSet available_ings) ≠ ∅)))
                 [] ∅ 0)) :=
        visits_eq_def _ _ _ _ _ _
      have h0 : 0 < (comboVisits recipes available_ings mr).length := by
        rw [hcv]
        simp
      have hget0 : (comboVisits recipes available_ings mr).get ⟨0, h0⟩
          = (([] : List Recipe), (∅ : Finset String), (0 : ℚ)) := by
        rw [get_of_eq hcv 0 h0]
        rfl
      have hkey0 : nkey ((comboVisits recipes available_ings mr).get ⟨0, h0⟩)
          = bkey ⟨[], 0, 0, ∅⟩ := by
        rw [hget0]
        simp [nkey, bkey]
      refine ⟨0, h0, ?_, ?_, ?_⟩
      · rw [hbt, heq, hget0]
        simp [mkSol]
      · intro j hj
        rw [hkey0]
        exact hall _ (List.get_mem _ _ _)
      · intro j hj hj0
        exact absurd hj0 (Nat.not_lt_zero j)
    · exact ⟨i, hi, by rw [hbt, heq], hmax, hfirst⟩

/-- C3: in each iteration the greedy loop picks, among the remaining
candidates, the first one in catalog order whose normalized requirement set
has a maximal intersection with `remaining` — a later candidate with an
equal-size intersection never wins — and when every intersection is empty
the iteration stops the loop with no further selections. -/
theorem greedy_selection_rule (cands : List Recipe) (remaining : Finset String)
    (k : ℕ) :
    ((∀ r ∈ cands, reqSet r ∩ remaining = ∅) →
      select_best cands remaining = (none, ∅)
      ∧ greedy_loop (k + 1) cands remaining = ([], remaining))
    ∧ ((∃ r ∈ cands, reqSet r ∩ remaining ≠ ∅) →
      ∃ i, ∃ hi : i < cands.length,
        select_best cands remaining
          = (some (cands.get ⟨i, hi⟩), reqSet (cands.get ⟨i, hi⟩) ∩ remaining)
        ∧ (∀ j, ∀ hj : j < cands.length,
            (reqSet (cands.get ⟨j, hj⟩) ∩ remaining).card
              ≤ (reqSet (cands.get ⟨i, hi⟩) ∩ remaining).card)
        ∧ (∀ j, ∀ hj : j < cands.length, j < i →
            (reqSet (cands.get ⟨j, hj⟩) ∩ remaining).card
              < (reqSet (cands.get ⟨i, hi⟩) ∩ remaining).card)
        ∧ greedy_loop (k + 1) cands remaining
            = (⟨cands.get ⟨i, hi⟩, sortStr (reqSet (cands.get ⟨i, hi⟩) ∩ remaining)⟩
                :: (greedy_loop k (cands.erase (cands.get ⟨i, hi⟩))
                    (remaining \ (reqSet (cands.get ⟨i, hi⟩) ∩ remaining))).1,
               (greedy_loop k (cands.erase (cands.get ⟨i, hi⟩))
                    (remaining \ (reqSet (cands.get ⟨i, hi⟩) ∩ remaining))).2)) := by
  constructor
  · intro hall
    rcases select_best_cases cands remaining with ⟨heq, _⟩ | ⟨i, hi, _, hpos, _, _⟩
    · refine ⟨heq, ?_⟩
      rw [greedy_loop, heq]
    · exfalso
      rw [hall _ (List.get_mem _ _ _)] at hpos
      simp at hpos
  · rintro ⟨r, hr, hne⟩
    rcases select_best_cases cands remaining with ⟨_, hall⟩ |
      ⟨i, hi, heq, hpos, hmax, hfirst⟩
    · exfalso
      have hcard0 : (reqSet r ∩ remaining).card = 0 := Nat.le_zero.mp (hall r hr)
      exact hne (Finset.card_eq_zero.mp hcard0)
    · refine ⟨i, hi, heq, hmax, hfirst, ?_⟩
      rw [greedy_loop, heq]
      simp only [if_neg (Nat.pos_iff_ne_zero.mp hpos)]

/-- C4: the greedy output never contains a recipe twice; every covered
field is a non-empty sorted subset of the normalized available set; the
covered fields are pairwise disjoint; and `total_covered` equals their
union and is a subset of the available set. -/
theorem greedy_invariants (recipes : List Recipe) (available_ings : List String)
    (k : Int) (hnd : recipes.Nodup) :
    ((greedy_recommendation recipes available_ings k).1.map GreedyChoice.recipe).Nodup
    ∧ (∀ c ∈ (greedy_recommendation recipes available_ings k).1,
        c.covered ≠ [] ∧ c.covered.Sorted (· ≤ ·)
        ∧ c.covered.toFinset ⊆ availSet available_ings)
    ∧ (greedy_recommendation recipes available_ings k).1.Pairwise
        (fun a b => a.covered.toFinset ∩ b.covered.toFinset = ∅)
    ∧ (greedy_recommendation recipes available_ings k).2.toFinset
        = coveredUnion (greedy_recommendation recipes available_ings k).1
    ∧ (greedy_recommendation recipes available_ings k).2.toFinset
        ⊆ availSet available_ings := by
  rcases greedy_loop_spec k.toNat recipes (availSet available_ings) with
    ⟨h1, h2, h3, h4, h5, h6, h7⟩
  have hg1 : (greedy_recommendation recipes available_ings k).1
      = (greedy_loop k.toNat recipes (availSet available_ings)).1 := rfl
  have hg2 : (greedy_recommendation recipes available_ings k).2
      = sortStr (availSet available_ings
          \ (greedy_loop k.toNat recipes (availSet available_ings)).2) := rfl
  refine ⟨?_, ?_, ?_, ?_, ?_⟩
  · rw [hg1]
    exact h7 hnd
  · rw [hg1]
    intro c hc
    rcases h3 c hc with ⟨hne, hsrt, hsubA, _⟩
    exact ⟨hne, hsrt, hsubA⟩
  · rw [hg1]
    exact h4
  · rw [hg2, sortStr_toFinset, hg1]
    exact h2
  · rw [hg2, sortStr_toFinset]
    exact Finset.sdiff_subset

/-- C10: the recommendation results depend only on the normalized
available-ingredient set, so duplicates, element order, letter case and
surrounding whitespace in the raw input are irrelevant. -/
theorem normalization_invariance (xs ys : List String) (recipes : List Recipe)
    (k : Int) (h : (normalize_ings xs).toFinset = (normalize_ings ys).toFinset) :
    greedy_recommendation recipes xs k = greedy_recommendation recipes ys k
    ∧ backtracking_best_combo recipes xs k = backtracking_best_combo recipes ys k := by
  have hA : availSet xs = availSet ys := h
  constructor
  · unfold greedy_recommendation
    rw [hA]
  · unfold backtracking_best_combo
    rw [hA]

/-- A small concrete catalog, used only to instantiate theorems with
hypotheses at concrete inputs. -/
def egRecipes : List Recipe :=
  [⟨1, "Pancakes", ["Egg", "Milk"]⟩, ⟨2, "Milk Sweet", ["Milk", "Sugar"]⟩]

theorem greedy_invariants_witness :
    ((greedy_recommendation egRecipes ["milk", " Sugar "] 2).1.map
      GreedyChoice.recipe).Nodup :=
  (greedy_invariants egRecipes ["milk", " Sugar "] 2 (by decide)).1

theorem combo_solution_wf_witness :
    (backtracking_best_combo egRecipes ["milk", "sugar"] 2).recipes.Nodup :=
  (combo_solution_wf egRecipes ["milk", "sugar"] 2 (by decide) (by decide)).2.1

theorem normalization_invariance_witness :
    greedy_recommendation egRecipes ["milk", "sugar"] 1
      = greedy_recommendation egRecipes ["sugar", "milk"] 1 :=
  (normalization_invariance ["milk", "sugar"] ["sugar", "milk"] egRecipes 1
    (by
      simp only [normalize_ings, List.map_cons, List.map_nil, List.toFinset_cons,
        List.toFinset_nil]
      exact Finset.Insert.comm _ _ _)).1

/-- Round half to even at the integers, the rounding Python's `round`
uses; stated over exact rationals. -/
def round_half_even (q : ℚ) : ℤ :=
  if Int.fract q < 1/2 then ⌊q⌋
  else if 1/2 < Int.fract q then ⌊q⌋ + 1
  else if ⌊q⌋ % 2 = 0 then ⌊q⌋ else ⌊q⌋ + 1

/-- Python `round(s, 3)` idealized over exact rationals. -/
def pyround3 (q : ℚ) : ℚ := (round_half_even (q * 1000) : ℚ) / 1000

/-- One element of the `matched_recipes` list the `/recipes` route builds. -/
structure MatchEntry where
  recipe : Recipe
  score : ℚ
  missing : List String
  present : List String
  substitutions : List (String × List String)
deriving DecidableEq

/-- The sort's comparison: Python's ascending order on the key
`(-x["score"], -len(x["present"]))`. -/
def matchKeyLe (a b : MatchEntry) : Bool :=
  decide (b.score < a.score
    ∨ (a.score = b.score ∧ b.present.length ≤ a.present.length))

/-- The `matched_recipes` list before sorting: catalog order, keeping only
recipes whose `match_score` is positive, with the rounded score. -/
def matched_entries (recipes : List Recipe) (available_norm : Finset String) :
    List MatchEntry :=
  recipes.filterMap (fun r =>
    if 0 < (match_score r available_norm).1 then
      some ⟨r, pyround3 (match_score r available_norm).1,
        (match_score r available_norm).2.1, (match_score r available_norm).2.2,
        substitution_suggestions (match_score r available_norm).2.1⟩
    else none)

/-- The route's parsing of the raw form field:
`[i.strip() for i in raw.split(",") if i.strip()]`. -/
def parse_ingredients (raw : String) : List String :=
  ((raw.splitOn ",").map String.trim).filter (fun s => decide (s ≠ ""))

/-- The `/recipes` route's ranked match list: parse the raw ingredient
string, keep positively scored recipes, and stable-sort by descending
rounded score, then descending number of present ingredients. -/
def recipe_list_matches (recipes : List Recipe) (raw : String) : List MatchEntry :=
  (matched_entries recipes (availSet (parse_ingredients raw))).mergeSort matchKeyLe

theorem matchKeyLe_trans (a b c : MatchEntry) :
    matchKeyLe a b = true → matchKeyLe b c = true → matchKeyLe a c = true := by
  simp only [matchKeyLe, decide_eq_true_eq]
  rintro (h1 | ⟨h1, h1'⟩) (h2 | ⟨h2, h2'⟩)
  · exact Or.inl (lt_trans h2 h1)
  · exact Or.inl (h2 ▸ h1)
  · exact Or.inl (lt_of_lt_of_le h2 h1.ge)
  · exact Or.inr ⟨h1.trans h2, le_trans h2' h1'⟩

theorem matchKeyLe_total (a b : MatchEntry) :
    (matchKeyLe a b || matchKeyLe b a) = true := by
  simp only [matchKeyLe, Bool.or_eq_true, decide_eq_true_eq]
  rcases lt_trichotomy a.score b.score with h | h | h
  · exact Or.inr (Or.inl h)
  · rcases le_total a.present.length b.present.length with hp | hp
    · exact Or.inr (Or.inr ⟨h.symm, hp⟩)
    · exact Or.inl (Or.inr ⟨h, hp⟩)
  · exact Or.inl (Or.inl h)

theorem mem_matched_entries {recipes : List Recipe} {A : Finset String}
    {e : MatchEntry} (he : e ∈ matched_entries recipes A) :
    e.recipe ∈ recipes
    ∧ 0 < (match_score e.recipe A).1
    ∧ e.score = pyround3 (match_score e.recipe A).1
    ∧ e.missing = (match_score e.recipe A).2.1
    ∧ e.present = (match_score e.recipe A).2.2 := by
  rcases List.mem_filterMap.mp he with ⟨r, hr, hfr⟩
  by_cases hs : 0 < (match_score r A).1
  · rw [if_pos hs] at hfr
    have he' : e = ⟨r, pyround3 (match_score r A).1, (match_score r A).2.1,
        (match_score r A).2.2, substitution_suggestions (match_score r A).2.1⟩ :=
      (Option.some.inj hfr).symm
    subst he'
    exact ⟨hr, hs, rfl, rfl, rfl⟩
  · rw [if_neg hs] at hfr
    cases hfr

/-- C6: the ranked match list of the `/recipes` route is a permutation of
the positively-scored catalog entries, every element records a catalog
recipe with a positive Scorer score (the stored score being its rounded
value), the list is sorted by descending stored score with ties broken by
more present ingredients first, and among entries with a fully equal sort
key the catalog order is preserved (the sort is stable). -/
theorem recipe_list_ranking (recipes : List Recipe) (raw : String) :
    (recipe_list_matches recipes raw).Perm
        (matched_entries recipes (availSet (parse_ingredients raw)))
    ∧ (∀ e ∈ recipe_list_matches recipes raw,
        e.recipe ∈ recipes
        ∧ 0 < (match_score e.recipe (availSet (parse_ingredients raw))).1
        ∧ e.score = pyround3 (match_score e.recipe (availSet (parse_ingredients raw))).1
        ∧ e.present = (match_score e.recipe (availSet (parse_ingredients raw))).2.2)
    ∧ (recipe_list_matches recipes raw).Pairwise (fun a b => matchKeyLe a b = true)
    ∧ (∀ (q : ℚ) (n : ℕ),
        (recipe_list_matches recipes raw).filter
            (fun e => decide (e.score = q ∧ e.present.length = n))
          = (matched_entries recipes (availSet (parse_ingredients raw))).filter
            (fun e => decide (e.score = q ∧ e.present.length = n))) := by
  refine ⟨List.mergeSort_perm _ _, ?_, ?_, ?_⟩
  · intro e he
    have he' : e ∈ matched_entries recipes (availSet (parse_ingredients raw)) :=
      List.mem_mergeSort.mp he
    rcases mem_matched_entries he' with ⟨h1, h2, h3, _, h5⟩
    exact ⟨h1, h2, h3, h5⟩
  · exact List.sorted_mergeSort matchKeyLe_trans matchKeyLe_total _
  · intro q n
    have hperm : (recipe_list_matches recipes raw).Perm
        (matched_entries recipes (availSet (parse_ingredients raw))) :=
      List.mergeSort_perm _ _
    have hfp : ∀ e ∈ (matched_entries recipes (availSet (parse_ingredients raw))).filter
        (fun e => decide (e.score = q ∧ e.present.length = n)),
        e.score = q ∧ e.present.length = n := by
      intro e he
      have := List.of_mem_filter he
      exact decide_eq_true_eq.mp this
    have hpw : ((matched_entries recipes (availSet (parse_ingredients raw))).filter
        (fun e => decide (e.score = q ∧ e.present.length = n))).Pairwise
          (fun a b => matchKeyLe a b = true) := by
      apply List.pairwise_of_forall_mem_list
      intro a ha b hb
      rcases hfp a ha with ⟨ha1, ha2⟩
      rcases hfp b hb with ⟨hb1, hb2⟩
      simp only [matchKeyLe, decide_eq_true_eq]
      exact Or.inr ⟨ha1.trans hb1.symm, le_of_eq (hb2.trans ha2.symm)⟩
    have hsubl := List.sublist_mergeSort matchKeyLe_trans matchKeyLe_total hpw
      (List.filter_sublist (matched_entries recipes (availSet (parse_ingredients raw))))
    have hsubl2 : ((matched_entries recipes (availSet (parse_ingredients raw))).filter
        (fun e => decide (e.score = q ∧ e.present.length = n))).Sublist
          ((recipe_list_matches recipes raw).filter
            (fun e => decide (e.score = q ∧ e.present.length = n))) := by
      have h := hsubl.filter (fun e => decide (e.score = q ∧ e.present.length = n))
      rwa [List.filter_filter, show ∀ l : List MatchEntry,
        l.filter (fun e => decide (e.score = q ∧ e.present.length = n)
            && decide (e.score = q ∧ e.present.length = n))
          = l.filter (fun e => decide (e.score = q ∧ e.present.length = n)) from
        fun l => by
          apply List.filter_congr
          intro e _
          rw [Bool.and_self]] at h
    have hlen : ((recipe_list_matches recipes raw).filter
        (fun e => decide (e.score = q ∧ e.present.length = n))).length
        = ((matched_entries recipes (availSet (parse_ingredients raw))).filter
            (fun e => decide (e.score = q ∧ e.present.length = n))).length :=
      (hperm.filter _).length_eq
    exact (hsubl2.eq_of_length hlen.symm).symm

end RecipeApp
